import Mathlib

set_option maxRecDepth 10000

/-!
Verification of the WrightTools array utility module (WrightTools/kit/_array.py).

Each Python function of the module is shallowly embedded as an executable Lean
definition.  Machine floats are idealised as exact rationals; where IEEE NaN
behaviour matters (nan propagation in share_nans, remove_nans_1D, the mean of
an empty slice in smooth_1D, the 0/0 division in fft) values are modelled by
the type Fl below, a rational number or NaN.  Stateful in-place mutation
(smooth_1D) is modelled by explicit state passing through a fold, and Python
exceptions by Except.
-/

namespace WT

/-- A floating point value, idealised: either NaN or an exact rational.
Infinities are not modelled; no embedded code path below produces one. -/
inductive Fl where
  | nan : Fl
  | val : ℚ → Fl
deriving DecidableEq

/-- IEEE addition on idealised floats: NaN propagates through addition. -/
def Fl.add : Fl → Fl → Fl
  | Fl.val a, Fl.val b => Fl.val (a + b)
  | _, _ => Fl.nan

/-- IEEE multiplication on idealised floats: NaN propagates; note that
0 * NaN = NaN, as in IEEE arithmetic. -/
def Fl.mul : Fl → Fl → Fl
  | Fl.val a, Fl.val b => Fl.val (a * b)
  | _, _ => Fl.nan

/-- Division on idealised floats.  NaN propagates; division by zero yields
NaN (the only zero-divisor reached in the embedded code is the 0/0 case in
fft, which is NaN in IEEE arithmetic). -/
def Fl.div : Fl → Fl → Fl
  | Fl.val a, Fl.val b => if b = 0 then Fl.nan else Fl.val (a / b)
  | _, _ => Fl.nan

/-- Test for NaN, as numpy.isnan. -/
def Fl.isNan : Fl → Bool
  | Fl.nan => true
  | Fl.val _ => false

/-- Python sum of a list of floats (sum starts from 0, as the builtin). -/
def flSum (l : List Fl) : Fl := l.foldl Fl.add (Fl.val 0)

/-- numpy.ndarray.mean of a 1D slice: NaN on an empty slice (numpy emits a
RuntimeWarning and returns nan), otherwise the exact mean. -/
def flMean (l : List Fl) : Fl :=
  match l with
  | [] => Fl.nan
  | _ => Fl.div (flSum l) (Fl.val (l.length : ℚ))

/-- The errors raised by the embedded module: KeyError (closest_pair),
wt_exceptions.DimensionalityError and RuntimeError (fft), and the ValueError
raised by numpy reductions over empty arrays / invalid FFT arguments. -/
inductive WTError where
  | key (msg : String) : WTError
  | dimensionality (expected got : ℕ) : WTError
  | runtime (msg : String) : WTError
  | value (msg : String) : WTError
deriving DecidableEq

/-! ## smooth_1D

Python source:
```
def smooth_1D(arr, n=10):
    for i in range(n, len(arr) - n):
        window = arr[i - n:i + n].copy()
        arr[i] = window.mean()
    return arr
```
The in-place mutation of arr is modelled by folding the index list over the
current state of the array; each window is read from the array as already
mutated by the earlier iterations, exactly as the Python loop does.  The
returned list is the final state of the mutated argument. -/
def smooth_1D (arr : List Fl) (n : ℕ) : List Fl :=
  (List.range' n (arr.length - n - n)).foldl
    (fun a i => a.set i (flMean ((a.drop (i - n)).take (i + n - (i - n))))) arr

/-! ## unique

Python source:
```
def unique(arr, tolerance=1e-6):
    arr = sorted(arr.flatten())
    unique = []
    while len(arr) > 0:
        current = arr[0]
        lis = [xi for xi in arr if np.abs(current - xi) < tolerance]
        arr = [xi for xi in arr if not np.abs(lis[0] - xi) < tolerance]
        xi_lis_average = sum(lis) / len(lis)
        unique.append(xi_lis_average)
    return np.array(unique)
```
The input is modelled as an already-flattened 1D list of rationals.  The
`lis[0]` subscript raises IndexError when lis is empty (which happens exactly
when tolerance is nonpositive), modelled by Except.error. -/

/-- The list comprehension building lis: all remaining values within
tolerance of the current minimum. -/
def cluster (t current : ℚ) (arr : List ℚ) : List ℚ :=
  arr.filter (fun x => decide (|current - x| < t))

/-- The list comprehension rebuilding arr: all remaining values not within
tolerance of lis[0]. -/
def removeClose (t l0 : ℚ) (arr : List ℚ) : List ℚ :=
  arr.filter (fun x => decide (¬ |l0 - x| < t))

/-- The while loop of unique, with an explicit fuel bound on the number of
iterations.  Every iteration that recurses strictly shrinks the pool (the
head of a nonempty lis satisfies the removal predicate, being at distance 0
from itself with lis nonempty forcing 0 < tolerance), so fuel arr.length is
always sufficient and the fuel-exhausted branch is unreachable — see the
theorems uniqueLoopF_fuel_independent and unique_loop_termination. -/
def uniqueLoopF : ℕ → ℚ → List ℚ → Except String (List ℚ)
  | _, _, [] => Except.ok []
  | 0, _, _ :: _ => Except.error "unreachable: fuel exhausted"
  | fuel + 1, t, current :: rest =>
    let lis := cluster t current (current :: rest)
    if lis = [] then Except.error "IndexError: list index out of range"
    else
      match uniqueLoopF fuel t (removeClose t (lis.headD 0) (current :: rest)) with
      | Except.error e => Except.error e
      | Except.ok u => Except.ok ((lis.sum / (lis.length : ℚ)) :: u)

/-- The while loop of unique: the pool length bounds the iteration count. -/
def uniqueLoop (t : ℚ) (arr : List ℚ) : Except String (List ℚ) :=
  uniqueLoopF arr.length t arr

/-- Embedding of unique: sort ascending (Python sorted), then run the
clustering loop. -/
def unique (arr : List ℚ) (t : ℚ) : Except String (List ℚ) :=
  uniqueLoop t (List.insertionSort (· ≤ ·) arr)

/-! ## closest_pair

Python source:
```
def closest_pair(arr, give='indicies'):
    idxs = [idx for idx in np.ndindex(arr.shape)]
    outs = []
    min_dist = arr.max() - arr.min()
    for idxa in idxs:
        for idxb in idxs:
            if idxa == idxb:
                continue
            dist = abs(arr[idxa] - arr[idxb])
            if dist == min_dist:
                if not [idxb, idxa] in outs:
                    outs.append([idxa, idxb])
            elif dist < min_dist:
                min_dist = dist
                outs = [[idxa, idxb]]
    if give == 'indicies':
        return outs
    elif give == 'distance':
        return min_dist
    else:
        raise KeyError('give not recognized in closest_pair')
```
The array is embedded in its flat (1-D) form: np.ndindex enumerates index
tuples in row-major order, so indices become the natural numbers 0..n-1 and
the double loop is the row-major double loop below.  arr.max() on an empty
array raises ValueError before the mode is examined. -/

/-- The possible return values of closest_pair. -/
inductive CPOut where
  | indices (l : List (ℕ × ℕ)) : CPOut
  | distance (d : ℚ) : CPOut
deriving DecidableEq

/-- abs(arr[idxa] - arr[idxb]). -/
def pairDist (arr : List ℚ) (p : ℕ × ℕ) : ℚ :=
  |arr.getD p.1 0 - arr.getD p.2 0|

/-- One iteration of the double loop of closest_pair, acting on the state
(min_dist, outs). -/
def cpStep (arr : List ℚ) (st : ℚ × List (ℕ × ℕ)) (p : ℕ × ℕ) : ℚ × List (ℕ × ℕ) :=
  if p.1 = p.2 then st
  else if pairDist arr p = st.1 then
    if (p.2, p.1) ∈ st.2 then st else (st.1, st.2 ++ [p])
  else if pairDist arr p < st.1 then (pairDist arr p, [p])
  else st

/-- All ordered index pairs in the order the Python double loop visits them. -/
def cpPairs (n : ℕ) : List (ℕ × ℕ) :=
  (List.range n).flatMap (fun a => (List.range n).map (fun b => (a, b)))

/-- arr.max() for a nonempty array. -/
def listMax (l : List ℚ) : ℚ := l.foldl max (l.headD 0)

/-- arr.min() for a nonempty array. -/
def listMin (l : List ℚ) : ℚ := l.foldl min (l.headD 0)

/-- The initial value of min_dist: arr.max() - arr.min(). -/
def cpInit (arr : List ℚ) : ℚ := listMax arr - listMin arr

/-- The full double loop of closest_pair. -/
def cpRun (arr : List ℚ) : ℚ × List (ℕ × ℕ) :=
  (cpPairs arr.length).foldl (cpStep arr) (cpInit arr, [])

/-- Embedding of closest_pair. -/
def closest_pair (arr : List ℚ) (give : String) : Except WTError CPOut :=
  if arr.isEmpty then
    Except.error (WTError.value "zero-size array to reduction operation maximum which has no identity")
  else if give = "indicies" then Except.ok (CPOut.indices (cpRun arr).2)
  else if give = "distance" then Except.ok (CPOut.distance (cpRun arr).1)
  else Except.error (WTError.key "give not recognized in closest_pair")

/-! ## diff

Python source:
```
def diff(xi, yi, order=1):
    xi = np.array(xi).copy()
    yi = np.array(yi).copy()
    arg = np.argsort(xi)
    xi = xi[arg]
    yi = yi[arg]
    midpoints = (xi[1:] + xi[:-1]) / 2
    for _ in range(order):
        d = np.diff(yi)
        d /= np.diff(xi)
        yi = np.interp(xi, midpoints, d)
    return yi[arg]
```
-/

/-- np.argsort: the list of indices that sorts xi ascending.  numpy leaves
the order of equal keys unspecified (quicksort); ties are modelled
deterministically by original position. -/
def argsort (xi : List ℚ) : List ℕ :=
  List.insertionSort
    (fun a b => xi.getD a 0 < xi.getD b 0 ∨ (xi.getD a 0 = xi.getD b 0 ∧ a ≤ b))
    (List.range xi.length)

/-- np.diff: first differences. -/
def npdiff (l : List ℚ) : List ℚ := List.zipWith (fun a b => a - b) l.tail l

/-- np.interp at a single point over the knot list xp.zip fp (xp assumed
increasing): clamped to the edge values outside the knot range, linear
between consecutive knots. -/
def interp1 : List (ℚ × ℚ) → ℚ → ℚ
  | [], _ => 0
  | [(_, f0)], _ => f0
  | (x0, f0) :: (x1, f1) :: rest, x =>
    if x ≤ x0 then f0
    else if x ≤ x1 then f0 + (f1 - f0) * (x - x0) / (x1 - x0)
    else interp1 ((x1, f1) :: rest) x

/-- np.interp over a list of sample points. -/
def npinterp (x xp fp : List ℚ) : List ℚ := x.map (interp1 (xp.zip fp))

/-- Embedding of diff.  Note the final line yi[arg]: the code indexes the
derivative by the sorting permutation itself, not by its inverse. -/
def diff (xi yi : List ℚ) (order : ℕ) : List ℚ :=
  let arg := argsort xi
  let xs := arg.map (fun i => xi.getD i 0)
  let ys := arg.map (fun i => yi.getD i 0)
  let midpoints := List.zipWith (fun a b => (a + b) / 2) xs.tail xs
  let ysF := (List.range order).foldl
    (fun ys _ => npinterp xs midpoints
      (List.zipWith (fun a b => a / b) (npdiff ys) (npdiff xs))) ys
  arg.map (fun i => ysF.getD i 0)

/-- Modelled from the spec: the same computation as diff, but with the final
step actually restoring the pre-sort ordering (the value at original position
i is the derivative computed for sample xi[i]), i.e. indexing by the inverse
of the sorting permutation.  This is what the sentence of the spec (and the
docstring of diff) describe. -/
def diffSpecRestored (xi yi : List ℚ) (order : ℕ) : List ℚ :=
  let arg := argsort xi
  let xs := arg.map (fun i => xi.getD i 0)
  let ys := arg.map (fun i => yi.getD i 0)
  let midpoints := List.zipWith (fun a b => (a + b) / 2) xs.tail xs
  let ysF := (List.range order).foldl
    (fun ys _ => npinterp xs midpoints
      (List.zipWith (fun a b => a / b) (npdiff ys) (npdiff xs))) ys
  (List.range xi.length).map (fun i => ysF.getD (arg.indexOf i) 0)

/-! ## remove_nans_1D

Python source:
```
def remove_nans_1D(arrs):
    bads = np.array([])
    for arr in arrs:
        bad = np.array(np.where(np.isnan(arr))).flatten()
        bads = np.hstack((bad, bads))
    if hasattr(arrs, 'shape') and len(arrs.shape) == 1:
        goods = [i for i in np.arange(arrs.shape[0]) if i not in bads]
    else:
        goods = [i for i in np.arange(len(arrs[0])) if i not in bads]
    # apply
    return [a[goods] for a in arrs]
```
The input is a Python list of 1-D arrays, so the else branch applies. -/

/-- np.where(np.isnan(arr)) flattened: the indices at which arr is NaN. -/
def nanIndices (a : List Fl) : List ℕ :=
  (List.range a.length).filter (fun i => (a.getD i Fl.nan).isNan)

/-- Embedding of remove_nans_1D. -/
def remove_nans_1D (arrs : List (List Fl)) : List (List Fl) :=
  let bads := arrs.foldl (fun acc a => nanIndices a ++ acc) []
  let goods := (List.range (arrs.headD []).length).filter (fun i => decide (¬ i ∈ bads))
  arrs.map (fun a => goods.map (fun i => a.getD i Fl.nan))

/-! ## share_nans

Python source:
```
def share_nans(arrs):
    nans = np.zeros((arrs[0].shape))
    for arr in arrs:
        nans *= arr
    return [a + nans for a in arrs]
```
N-D arrays of a common shape are embedded in flat (row-major) form; the
elementwise operations are position-wise on the flat data. -/
def share_nans (arrs : List (List Fl)) : List (List Fl) :=
  let nans := arrs.foldl (fun acc arr => List.zipWith Fl.mul acc arr)
    (List.replicate (arrs.headD []).length (Fl.val 0))
  arrs.map (fun a => List.zipWith Fl.add a nans)

/-! ## fft

Python source:
```
def fft(xi, yi, axis=0):
    if xi.ndim != 1:
        raise wt_exceptions.DimensionalityError(1, xi.ndim)
    spacing = np.diff(xi)
    if not np.allclose(spacing, spacing.mean()):
        raise RuntimeError('WrightTools.kit.fft: argument xi must be evenly spaced')
    yi = np.fft.fft(yi, axis=axis)
    d = (xi.max() - xi.min()) / (xi.size - 1)
    xi = np.fft.fftfreq(xi.size, d=d)
    xi = np.fft.fftshift(xi)
    yi = np.fft.fftshift(yi, axes=axis)
    return xi, yi
```
N-D arrays are embedded as a shape plus flat row-major data.  The complex
values of the discrete Fourier transform are represented exactly in the
group ring of the n-th roots of unity: an output value is the list of
rational coefficients of the powers of the primitive n-th root of unity
omega = exp(-2 pi i / n), which determines the ideal complex value exactly.
The shape bookkeeping (the object of claim C6) is independent of the value
representation. -/

/-- An N-dimensional numpy array with entries of type alpha: a shape and the
flat row-major data. -/
structure NDArray (α : Type) where
  shape : List ℕ
  data : List α
deriving DecidableEq

/-- Number of dimensions. -/
def NDArray.ndim {α : Type} (a : NDArray α) : ℕ := a.shape.length

/-- np.fft.fft along the given axis.  numpy raises for an out-of-range axis
and for zero points along the transform axis; otherwise the output has the
shape of the input.  Output entry at flat position (outer, k, j) is the list
of coefficients of the DFT sum over m of data(outer, m, j) * omega^(m*k). -/
def npfft (y : NDArray ℚ) (ax : ℕ) : Except WTError (NDArray (List ℚ)) :=
  if ax < y.shape.length then
    let n := y.shape.getD ax 0
    if n = 0 then
      Except.error (WTError.value "Invalid number of FFT data points (0) specified.")
    else
      let inner := (y.shape.drop (ax + 1)).prod
      Except.ok
        { shape := y.shape
          data := (List.range y.data.length).map (fun i =>
            let j := i % inner
            let k := (i / inner) % n
            let base := (i / (inner * n)) * (inner * n)
            (List.range n).map (fun c =>
              (((List.range n).filter (fun m => m * k % n = c)).map
                (fun m => y.data.getD (base + m * inner + j) 0)).sum)) }
  else Except.error (WTError.value "axis is out of bounds for array")

/-- np.fft.fftshift along the given axis: a roll by n / 2, moving the zero
frequency to the centre. -/
def npfftshift (y : NDArray (List ℚ)) (ax : ℕ) : NDArray (List ℚ) :=
  let n := y.shape.getD ax 1
  let inner := (y.shape.drop (ax + 1)).prod
  { shape := y.shape
    data := (List.range y.data.length).map (fun i =>
      let j := i % inner
      let k := (i / inner) % n
      let base := (i / (inner * n)) * (inner * n)
      let ksrc := (k + (n - n / 2)) % n
      y.data.getD (base + ksrc * inner + j) []) }

/-- np.fft.fftshift for the 1-D frequency axis. -/
def fftshift1 (l : List Fl) : List Fl :=
  (List.range l.length).map (fun k =>
    l.getD ((k + (l.length - l.length / 2)) % l.length) Fl.nan)

/-- np.fft.fftfreq: the first (n-1)/2 + 1 entries are 0, 1, ... and the
remaining ones are -(n/2), ..., -1, all divided by n*d. -/
def fftfreq (n : ℕ) (d : Fl) : List Fl :=
  (List.range n).map (fun i =>
    let c : ℤ := if i < (n - 1) / 2 + 1 then (i : ℤ) else (i : ℤ) - (n : ℤ)
    Fl.mul (Fl.val (c : ℚ)) (Fl.div (Fl.val 1) (Fl.mul (Fl.val (n : ℚ)) d)))

/-- spacing.mean() over the rational spacing list: NaN when empty. -/
def meanQ (l : List ℚ) : Fl :=
  match l with
  | [] => Fl.nan
  | _ => Fl.val (l.sum / (l.length : ℚ))

/-- np.allclose(spacing, m) with the default tolerances rtol = 1e-5 and
atol = 1e-8; a NaN comparand fails every comparison (equal_nan is False),
and the empty comparison is vacuously true. -/
def allcloseQ (l : List ℚ) (m : Fl) : Bool :=
  l.all (fun s =>
    match m with
    | Fl.nan => false
    | Fl.val b => decide (|s - b| ≤ 1 / 100000000 + (1 / 100000) * |b|))

/-- Embedding of fft. -/
def fft (xi : NDArray ℚ) (yi : NDArray ℚ) (ax : ℕ) :
    Except WTError (List Fl × NDArray (List ℚ)) :=
  if xi.ndim = 1 then
    if allcloseQ (npdiff xi.data) (meanQ (npdiff xi.data)) then
      match npfft yi ax with
      | Except.error e => Except.error e
      | Except.ok yi2 =>
        match xi.data with
        | [] =>
          Except.error (WTError.value "zero-size array to reduction operation maximum which has no identity")
        | x0 :: xs =>
          let d := Fl.div (Fl.val (listMax (x0 :: xs) - listMin (x0 :: xs)))
            (Fl.val ((xi.data.length : ℚ) - 1))
          Except.ok (fftshift1 (fftfreq xi.data.length d), npfftshift yi2 ax)
    else Except.error (WTError.runtime "WrightTools.kit.fft: argument xi must be evenly spaced")
  else Except.error (WTError.dimensionality 1 xi.ndim)

end WT

deriving instance DecidableEq for Except

namespace WT

/-! ## General helper lemmas -/

/-- A fold of in-place updates preserves the length of the array. -/
theorem foldl_set_length (f : List Fl → ℕ → Fl) :
    ∀ (idxs : List ℕ) (a : List Fl),
      (idxs.foldl (fun a i => a.set i (f a i)) a).length = a.length := by
  intro idxs
  induction idxs with
  | nil => intro a; rfl
  | cons i is ih => intro a; rw [List.foldl_cons, ih, List.length_set]

/-- A fold of in-place updates at indices all different from j leaves
position j unchanged. -/
theorem foldl_set_getD_notin (f : List Fl → ℕ → Fl) (j : ℕ) :
    ∀ (idxs : List ℕ) (a : List Fl), (∀ i ∈ idxs, i ≠ j) →
      (idxs.foldl (fun a i => a.set i (f a i)) a).getD j Fl.nan = a.getD j Fl.nan := by
  intro idxs
  induction idxs with
  | nil => intro a _; rfl
  | cons i is ih =>
    intro a h
    rw [List.foldl_cons, ih _ (fun x hx => h x (List.mem_cons_of_mem _ hx))]
    have hij : i ≠ j := h i (List.mem_cons_self i is)
    simp [List.getD_eq_getElem?_getD, List.getElem?_set_ne hij]

/-- The initial accumulator is below a max-fold. -/
theorem le_foldl_max : ∀ (l : List ℚ) (a : ℚ), a ≤ l.foldl max a := by
  intro l
  induction l with
  | nil => intro a; exact le_refl a
  | cons x xs ih => intro a; exact le_trans (le_max_left a x) (ih (max a x))

/-- Every member of the list is below a max-fold. -/
theorem mem_le_foldl_max : ∀ (l : List ℚ) (x : ℚ), x ∈ l → ∀ a : ℚ, x ≤ l.foldl max a := by
  intro l
  induction l with
  | nil => intro x hx; cases hx
  | cons y ys ih =>
    intro x hx a
    rcases List.mem_cons.mp hx with h | h
    · subst h; exact le_trans (le_max_right a x) (le_foldl_max ys (max a x))
    · exact ih x h (max a y)

/-- A min-fold is below the initial accumulator. -/
theorem foldl_min_le : ∀ (l : List ℚ) (a : ℚ), l.foldl min a ≤ a := by
  intro l
  induction l with
  | nil => intro a; exact le_refl a
  | cons x xs ih => intro a; exact le_trans (ih (min a x)) (min_le_left a x)

/-- A min-fold is below every member of the list. -/
theorem foldl_min_le_mem : ∀ (l : List ℚ) (x : ℚ), x ∈ l → ∀ a : ℚ, l.foldl min a ≤ x := by
  intro l
  induction l with
  | nil => intro x hx; cases hx
  | cons y ys ih =>
    intro x hx a
    rcases List.mem_cons.mp hx with h | h
    · subst h; exact le_trans (foldl_min_le ys (min a x)) (min_le_right a x)
    · exact ih x h (min a y)

/-- A max-fold returns the accumulator or an element of the list. -/
theorem foldl_max_mem : ∀ (l : List ℚ) (a : ℚ), l.foldl max a = a ∨ l.foldl max a ∈ l := by
  intro l
  induction l with
  | nil => intro a; exact Or.inl rfl
  | cons x xs ih =>
    intro a
    rcases ih (max a x) with h | h
    · rcases max_choice a x with hm | hm
      · rw [List.foldl_cons, h, hm]; exact Or.inl rfl
      · rw [List.foldl_cons, h, hm]; exact Or.inr (List.mem_cons_self x xs)
    · exact Or.inr (List.mem_cons_of_mem x h)

/-- A min-fold returns the accumulator or an element of the list. -/
theorem foldl_min_mem : ∀ (l : List ℚ) (a : ℚ), l.foldl min a = a ∨ l.foldl min a ∈ l := by
  intro l
  induction l with
  | nil => intro a; exact Or.inl rfl
  | cons x xs ih =>
    intro a
    rcases ih (min a x) with h | h
    · rcases min_choice a x with hm | hm
      · rw [List.foldl_cons, h, hm]; exact Or.inl rfl
      · rw [List.foldl_cons, h, hm]; exact Or.inr (List.mem_cons_self x xs)
    · exact Or.inr (List.mem_cons_of_mem x h)

/-- Every member of a nonempty array is bounded by listMax. -/
theorem le_listMax {arr : List ℚ} {x : ℚ} (h : x ∈ arr) : x ≤ listMax arr :=
  mem_le_foldl_max arr x h (arr.headD 0)

/-- listMin is below every member of a nonempty array. -/
theorem listMin_le {arr : List ℚ} {x : ℚ} (h : x ∈ arr) : listMin arr ≤ x :=
  foldl_min_le_mem arr x h (arr.headD 0)

/-- listMax of a nonempty array is one of its elements. -/
theorem listMax_mem {arr : List ℚ} (h : arr ≠ []) : listMax arr ∈ arr := by
  rcases foldl_max_mem arr (arr.headD 0) with hm | hm
  · rw [listMax, hm]
    cases arr with
    | nil => exact absurd rfl h
    | cons x xs => exact List.mem_cons_self x xs
  · exact hm

/-- listMin of a nonempty array is one of its elements. -/
theorem listMin_mem {arr : List ℚ} (h : arr ≠ []) : listMin arr ∈ arr := by
  rcases foldl_min_mem arr (arr.headD 0) with hm | hm
  · rw [listMin, hm]
    cases arr with
    | nil => exact absurd rfl h
    | cons x xs => exact List.mem_cons_self x xs
  · exact hm

/-! ## Claim C1: diff and the restoration of the original ordering -/

/-- C1 (code bug): the claim (and the docstring of diff) say the output of
diff is restored to the original pre-sort ordering of xi, but the final line
of diff indexes the derivative by the sorting permutation itself (yi[arg])
instead of by its inverse.  At xi = [1, 2, 0] and yi = xi squared = [1, 4, 0]
(order 1), the code returns [3, 1, 2], whereas the restored-to-original-order
output described by the spec is [2, 3, 1]: the derivative associated with
the original sample xi[0] = 1 is 2, yet position 0 of the returned array
holds 3. -/
theorem diff_not_restored_cex :
    diff [1, 2, 0] [1, 4, 0] 1 = [3, 1, 2] ∧
    diffSpecRestored [1, 2, 0] [1, 4, 0] 1 = [2, 3, 1] ∧
    diff [1, 2, 0] [1, 4, 0] 1 ≠ diffSpecRestored [1, 2, 0] [1, 4, 0] 1 :=
  ⟨by with_unfolding_all decide, by with_unfolding_all decide, by with_unfolding_all decide⟩

/-! ## Claim C2: closest_pair mode dispatch -/

/-- C2 counterexample: a nonempty array with mode "indices" (the spelling
used by the claim) raises the unrecognized-option KeyError, although the
claim asserts that this mode returns the list of index pairs and that the
error occurs only for modes other than "indices" and "distance". -/
theorem closest_pair_indices_spelling_cex :
    closest_pair [0, 1] "indices" =
      Except.error (WTError.key "give not recognized in closest_pair") := by
  with_unfolding_all decide

/-- C2 (amended): the spelling recognized by the code is "indicies".  For
every nonempty numeric array, mode "indicies" returns the list of index
pairs, mode "distance" returns the scalar minimum distance, and the
unrecognized-option KeyError is raised if and only if the mode is neither
"indicies" nor "distance". -/
theorem closest_pair_mode_dispatch (arr : List ℚ) (give : String) (h : arr ≠ []) :
    (give = "indicies" → ∃ l, closest_pair arr give = Except.ok (CPOut.indices l)) ∧
    (give = "distance" → ∃ d, closest_pair arr give = Except.ok (CPOut.distance d)) ∧
    ((∃ msg, closest_pair arr give = Except.error (WTError.key msg)) ↔
      (give ≠ "indicies" ∧ give ≠ "distance")) := by
  have hempty : arr.isEmpty = false := by
    cases arr with
    | nil => exact absurd rfl h
    | cons x xs => rfl
  refine ⟨?_, ?_, ?_⟩
  · intro hg
    exact ⟨(cpRun arr).2, by rw [closest_pair, hempty, hg]; rfl⟩
  · intro hg
    exact ⟨(cpRun arr).1, by rw [closest_pair, hempty, hg]; simp⟩
  · constructor
    · rintro ⟨msg, hmsg⟩
      by_cases h1 : give = "indicies"
      · rw [closest_pair, hempty, h1] at hmsg
        simp at hmsg
      · by_cases h2 : give = "distance"
        · rw [closest_pair, hempty, h2] at hmsg
          simp at hmsg
        · exact ⟨h1, h2⟩
    · rintro ⟨h1, h2⟩
      refine ⟨"give not recognized in closest_pair", ?_⟩
      rw [closest_pair, hempty]
      simp [h1, h2]

/-- Witness for C2: concrete instantiation at arr = [0, 1]. -/
theorem closest_pair_mode_dispatch_witness :
    ∃ d, closest_pair [0, 1] "distance" = Except.ok (CPOut.distance d) :=
  (closest_pair_mode_dispatch [0, 1] "distance" (List.cons_ne_nil 0 [1])).2.1 rfl

/-! ## Claim C3: smooth_1D with trivial interior range -/

/-- C3 counterexample: for the length-5 array [4, 0, 0, 0, 0] and
halfwidth = 2 = 5 / 2 (so halfwidth >= len(arr) // 2, as the claim demands),
the interior range is the single index 2 and the element there is replaced by
the mean 1 of the window [4, 0, 0, 0]: the array is changed.  (The other arm
of the claim also fails: halfwidth = 0 replaces every element by the mean of
an empty window, which is NaN.) -/
theorem smooth_1D_halfwidth_cex :
    smooth_1D [Fl.val 4, Fl.val 0, Fl.val 0, Fl.val 0, Fl.val 0] 2 ≠
      [Fl.val 4, Fl.val 0, Fl.val 0, Fl.val 0, Fl.val 0] := by
  with_unfolding_all decide

/-- C3 (amended): smooth_1D leaves the array unchanged precisely when the
interior iteration range is empty, i.e. when len(arr) <= 2 * halfwidth
(equivalently halfwidth >= ceil(len(arr) / 2)); the halfwidth = 0 case and
the odd-length halfwidth = len(arr) // 2 case are excluded. -/
theorem smooth_1D_unchanged_of_wide (arr : List Fl) (n : ℕ)
    (h : arr.length ≤ 2 * n) : smooth_1D arr n = arr := by
  have h0 : arr.length - n - n = 0 := by omega
  rw [smooth_1D, h0]
  exact rfl

/-- Witness for C3 (amended): a length-2 array with halfwidth 1. -/
theorem smooth_1D_unchanged_of_wide_witness :
    smooth_1D [Fl.val 1, Fl.val 2] 1 = [Fl.val 1, Fl.val 2] :=
  smooth_1D_unchanged_of_wide [Fl.val 1, Fl.val 2] 1 (by decide)

/-! ## Claim C9: smooth_1D mutates in place and spares the boundaries -/

/-- C9: smooth_1D returns its (in-place mutated) argument: in the embedding
the returned list is the final state of the fold over the argument; it keeps
the length of the input, and every position in the first halfwidth or last
halfwidth entries is left untouched, equal to its value before the call. -/
theorem smooth_1D_boundary (arr : List Fl) (n : ℕ) :
    (smooth_1D arr n).length = arr.length ∧
    ∀ j : ℕ, (j < n ∨ arr.length - n ≤ j) →
      (smooth_1D arr n).getD j Fl.nan = arr.getD j Fl.nan := by
  constructor
  · rw [smooth_1D]; exact foldl_set_length _ _ _
  · intro j hj
    rw [smooth_1D]
    refine foldl_set_getD_notin _ _ _ _ ?_
    intro i hi
    obtain ⟨k, hk, hik⟩ := List.mem_range'.mp hi
    omega

/-- Witness for C9: the first element of a length-4 array with halfwidth 1
is untouched. -/
theorem smooth_1D_boundary_witness :
    (smooth_1D [Fl.val 1, Fl.val 2, Fl.val 3, Fl.val 4] 1).getD 0 Fl.nan = Fl.val 1 := by
  rw [(smooth_1D_boundary [Fl.val 1, Fl.val 2, Fl.val 3, Fl.val 4] 1).2 0 (Or.inl (by decide))]
  exact rfl

/-! ## unique: equations and termination lemmas -/

/-- For positive tolerance the current minimum belongs to its own cluster. -/
theorem self_mem_cluster {t : ℚ} (ht : 0 < t) (current : ℚ) (arr : List ℚ)
    (h : current ∈ arr) : current ∈ cluster t current arr := by
  rw [cluster]
  refine List.mem_filter.mpr ⟨h, ?_⟩
  simp only [sub_self, abs_zero, decide_eq_true_eq]
  exact ht

/-- For nonpositive tolerance every cluster is empty: no value is strictly
within a nonpositive distance of the current minimum. -/
theorem cluster_eq_nil_of_nonpos {t : ℚ} (ht : t ≤ 0) (current : ℚ) (arr : List ℚ) :
    cluster t current arr = [] := by
  rw [cluster]
  refine List.filter_eq_nil_iff.mpr ?_
  intro x _
  simp only [decide_eq_true_eq, not_lt]
  exact le_trans ht (abs_nonneg _)

/-- Whenever the cluster of the current minimum is nonempty, its head is
removed by the removal filter, so the pool strictly shrinks. -/
theorem removeClose_length_lt_of_ne (t current : ℚ) (rest : List ℚ)
    (hne : cluster t current (current :: rest) ≠ []) :
    (removeClose t ((cluster t current (current :: rest)).headD 0) (current :: rest)).length <
      (current :: rest).length := by
  have hl0 : (cluster t current (current :: rest)).headD 0 ∈
      cluster t current (current :: rest) := by
    cases hc : cluster t current (current :: rest) with
    | nil => exact absurd hc hne
    | cons a as => exact List.mem_cons_self a as
  have hl0f : (cluster t current (current :: rest)).headD 0 ∈
      (current :: rest).filter (fun x => decide (|current - x| < t)) := by
    rw [cluster] at hl0
    exact hl0
  have hl0arr := (List.mem_filter.mp hl0f).1
  have hpt : |current - (cluster t current (current :: rest)).headD 0| < t :=
    of_decide_eq_true (List.mem_filter.mp hl0f).2
  have ht : 0 < t := lt_of_le_of_lt (abs_nonneg _) hpt
  rw [removeClose]
  refine List.length_filter_lt_length_iff_exists.mpr ⟨_, hl0arr, ?_⟩
  simp only [sub_self, abs_zero, decide_eq_true_eq, not_not]
  exact ht

/-- For positive tolerance each iteration of the clustering loop strictly
shrinks the pool: the head of the cluster is itself removed. -/
theorem removeClose_length_lt {t : ℚ} (ht : 0 < t) (current : ℚ) (rest : List ℚ) :
    (removeClose t ((cluster t current (current :: rest)).headD 0) (current :: rest)).length <
      (current :: rest).length :=
  removeClose_length_lt_of_ne t current rest
    (List.ne_nil_of_mem (self_mem_cluster ht current _ (List.mem_cons_self _ _)))

/-- Any fuel at least the pool length computes the same result: the loop is
well defined and never exhausts an adequate fuel. -/
theorem uniqueLoopF_fuel_independent :
    ∀ (f1 f2 : ℕ) (t : ℚ) (arr : List ℚ), arr.length ≤ f1 → arr.length ≤ f2 →
      uniqueLoopF f1 t arr = uniqueLoopF f2 t arr := by
  intro f1
  induction f1 with
  | zero =>
    intro f2 t arr h1 _
    have harr : arr = [] := List.length_eq_zero.mp (Nat.le_zero.mp h1)
    subst harr
    cases f2 with
    | zero => rfl
    | succ f2 => rfl
  | succ f1 ih =>
    intro f2 t arr h1 h2
    cases arr with
    | nil =>
      cases f2 with
      | zero => rfl
      | succ f2 => rfl
    | cons current rest =>
      cases f2 with
      | zero => simp at h2
      | succ f2 =>
        by_cases hne : cluster t current (current :: rest) = []
        · simp only [uniqueLoopF]
          rw [if_pos hne, if_pos hne]
        · have hlt := removeClose_length_lt_of_ne t current rest hne
          have ha1 : (removeClose t ((cluster t current (current :: rest)).headD 0)
              (current :: rest)).length ≤ f1 := by
            simp only [List.length_cons] at hlt h1
            omega
          have ha2 : (removeClose t ((cluster t current (current :: rest)).headD 0)
              (current :: rest)).length ≤ f2 := by
            simp only [List.length_cons] at hlt h2
            omega
          simp only [uniqueLoopF]
          rw [if_neg hne, if_neg hne, ih f2 t _ ha1 ha2]

/-- The empty-pool equation of the clustering loop. -/
theorem uniqueLoop_nil (t : ℚ) : uniqueLoop t [] = Except.ok [] := rfl

/-- The nonempty-pool equation of the clustering loop. -/
theorem uniqueLoop_cons (t current : ℚ) (rest : List ℚ) :
    uniqueLoop t (current :: rest) =
      if cluster t current (current :: rest) = [] then
        Except.error "IndexError: list index out of range"
      else
        match uniqueLoop t
            (removeClose t ((cluster t current (current :: rest)).headD 0) (current :: rest)) with
        | Except.error e => Except.error e
        | Except.ok u =>
          Except.ok (((cluster t current (current :: rest)).sum /
            ((cluster t current (current :: rest)).length : ℚ)) :: u) := by
  by_cases hne : cluster t current (current :: rest) = []
  · rw [if_pos hne]
    show uniqueLoopF (current :: rest).length t (current :: rest) = _
    simp only [List.length_cons, uniqueLoopF]
    rw [if_pos hne]
  · rw [if_neg hne]
    have hlt := removeClose_length_lt_of_ne t current rest hne
    have ha1 : (removeClose t ((cluster t current (current :: rest)).headD 0)
        (current :: rest)).length ≤ rest.length := by
      simp only [List.length_cons] at hlt
      omega
    show uniqueLoopF (current :: rest).length t (current :: rest) = _
    simp only [List.length_cons, uniqueLoopF]
    rw [if_neg hne,
      uniqueLoopF_fuel_independent rest.length
        (removeClose t ((cluster t current (current :: rest)).headD 0)
          (current :: rest)).length t _ ha1 le_rfl]
    rfl

/-- For positive tolerance the clustering loop always returns a result. -/
theorem uniqueLoop_ok_of_pos {t : ℚ} (ht : 0 < t) (arr : List ℚ) :
    ∃ u, uniqueLoop t arr = Except.ok u := by
  suffices h : ∀ (N : ℕ) (arr : List ℚ), arr.length ≤ N →
      ∃ u, uniqueLoop t arr = Except.ok u from h arr.length arr le_rfl
  intro N
  induction N with
  | zero =>
    intro arr hlen
    have harr : arr = [] := List.length_eq_zero.mp (Nat.le_zero.mp hlen)
    subst harr
    exact ⟨[], uniqueLoop_nil t⟩
  | succ N ih =>
    intro arr hlen
    cases arr with
    | nil => exact ⟨[], uniqueLoop_nil t⟩
    | cons current rest =>
      have hne : cluster t current (current :: rest) ≠ [] :=
        List.ne_nil_of_mem (self_mem_cluster ht current _ (List.mem_cons_self _ _))
      have hlt := removeClose_length_lt ht current rest
      obtain ⟨u, hu⟩ := ih
        (removeClose t ((cluster t current (current :: rest)).headD 0) (current :: rest))
        (by simp only [List.length_cons] at hlt hlen ⊢; omega)
      refine ⟨((cluster t current (current :: rest)).sum /
        ((cluster t current (current :: rest)).length : ℚ)) :: u, ?_⟩
      rw [uniqueLoop_cons, if_neg hne, hu]

/-! ## Claim C10: termination of the clustering loop of unique -/

/-- C10: for positive tolerance each iteration of the clustering loop of
unique removes at least one element from the remaining pool (the current
minimum is within distance 0 < tolerance of itself, hence satisfies the
removal predicate), so the pool strictly shrinks and the loop terminates
with a result for every input.  For nonpositive tolerance the cluster
comprehension over a non-empty pool is empty, so no element is ever removed;
there the loop does not produce a result: the lis[0] subscript aborts with
an IndexError. -/
theorem unique_loop_termination (t : ℚ) :
    (∀ (current : ℚ) (rest : List ℚ), 0 < t →
      (removeClose t ((cluster t current (current :: rest)).headD 0) (current :: rest)).length <
        (current :: rest).length) ∧
    (∀ arr : List ℚ, 0 < t → ∃ u, uniqueLoop t arr = Except.ok u) ∧
    (∀ (current : ℚ) (rest : List ℚ), t ≤ 0 →
      cluster t current (current :: rest) = [] ∧
      uniqueLoop t (current :: rest) = Except.error "IndexError: list index out of range") := by
  refine ⟨fun current rest ht => removeClose_length_lt ht current rest,
    fun arr ht => uniqueLoop_ok_of_pos ht arr,
    fun current rest ht => ?_⟩
  have hc := cluster_eq_nil_of_nonpos ht current (current :: rest)
  exact ⟨hc, by rw [uniqueLoop_cons, if_pos hc]⟩

/-- Witness for C10: tolerance 1 on the pool [0] shrinks and succeeds;
tolerance -1 aborts with the IndexError. -/
theorem unique_loop_termination_witness :
    (removeClose 1 ((cluster 1 0 [(0 : ℚ)]).headD 0) [(0 : ℚ)]).length <
      ([(0 : ℚ)]).length ∧
    (∃ u, uniqueLoop 1 [(0 : ℚ)] = Except.ok u) ∧
    uniqueLoop (-1) [(0 : ℚ)] = Except.error "IndexError: list index out of range" :=
  ⟨(unique_loop_termination 1).1 0 [] (by norm_num),
   (unique_loop_termination 1).2.1 [0] (by norm_num),
   ((unique_loop_termination (-1)).2.2 0 [] (by norm_num)).2⟩

/-! ## Claim C4: idempotence of unique -/

/-- C4 counterexample: unique is not idempotent.  With tolerance 1 the input
[0, 9/10, 1] yields the output [9/20, 1] (the first two values cluster to
9/20 and 1 stays alone), but the two output values are within tolerance of
each other, so a second application of unique merges them to [29/40]. -/
theorem unique_not_idempotent_cex :
    unique [0, 9/10, 1] 1 = Except.ok [9/20, 1] ∧
    unique [9/20, 1] 1 = Except.ok [29/40] ∧
    (Except.ok [29/40] : Except String (List ℚ)) ≠ Except.ok [9/20, 1] := by
  have h2 : uniqueLoop 1 [(1 : ℚ)] = Except.ok [1] := by
    have hc2 : cluster 1 1 [(1 : ℚ)] = [1] := by with_unfolding_all decide
    have hr2 : removeClose 1 (([(1 : ℚ)]).headD 0) [(1 : ℚ)] = [] := by
      with_unfolding_all decide
    rw [uniqueLoop_cons, hc2, if_neg (List.cons_ne_nil _ _), hr2, uniqueLoop_nil]
    with_unfolding_all decide
  refine ⟨?_, ?_, by with_unfolding_all decide⟩
  · have hs : List.insertionSort (· ≤ ·) [(0 : ℚ), 9/10, 1] = [0, 9/10, 1] := by
      with_unfolding_all decide
    have hc1 : cluster 1 0 [(0 : ℚ), 9/10, 1] = [0, 9/10] := by with_unfolding_all decide
    have hr1 : removeClose 1 (([(0 : ℚ), 9/10]).headD 0) [(0 : ℚ), 9/10, 1] = [1] := by
      with_unfolding_all decide
    rw [unique, hs, uniqueLoop_cons, hc1, if_neg (List.cons_ne_nil _ _), hr1, h2]
    with_unfolding_all decide
  · have hs : List.insertionSort (· ≤ ·) [(9/20 : ℚ), 1] = [9/20, 1] := by
      with_unfolding_all decide
    have hc1 : cluster 1 (9/20) [(9/20 : ℚ), 1] = [9/20, 1] := by with_unfolding_all decide
    have hr1 : removeClose 1 (([(9/20 : ℚ), 1]).headD 0) [(9/20 : ℚ), 1] = [] := by
      with_unfolding_all decide
    rw [unique, hs, uniqueLoop_cons, hc1, if_neg (List.cons_ne_nil _ _), hr1, uniqueLoop_nil]
    with_unfolding_all decide

/-- On a pool whose values are pairwise at least the (positive) tolerance
apart and sorted ascending, each cluster is the singleton of the current
minimum and the loop reproduces the pool. -/
theorem uniqueLoop_eq_self_of_separated {t : ℚ} (ht : 0 < t) :
    ∀ u : List ℚ, u.Pairwise (fun a b => a ≤ b ∧ t ≤ b - a) →
      uniqueLoop t u = Except.ok u := by
  intro u
  induction u with
  | nil => intro _; exact uniqueLoop_nil t
  | cons current rest ih =>
    intro hp
    obtain ⟨hhead, htail⟩ := List.pairwise_cons.mp hp
    have hclu : cluster t current (current :: rest) = [current] := by
      rw [cluster, List.filter_cons]
      have hcur : decide (|current - current| < t) = true := by
        simp only [sub_self, abs_zero, decide_eq_true_eq]
        exact ht
      rw [hcur, if_pos rfl]
      have hnil : rest.filter (fun x => decide (|current - x| < t)) = [] := by
        refine List.filter_eq_nil_iff.mpr ?_
        intro b hb
        obtain ⟨hle, hgap⟩ := hhead b hb
        simp only [decide_eq_true_eq, not_lt]
        rw [abs_sub_comm, abs_of_nonneg (by linarith)]
        linarith
      rw [hnil]
    have hrem : removeClose t (([current] : List ℚ).headD 0) (current :: rest) = rest := by
      rw [removeClose, List.filter_cons]
      have hcur : decide (¬ |([current] : List ℚ).headD 0 - current| < t) = false := by
        simp only [List.headD, sub_self, abs_zero, decide_eq_false_iff_not, not_not]
        exact ht
      rw [hcur]
      simp only [Bool.false_eq_true, if_false]
      refine List.filter_eq_self.mpr ?_
      intro b hb
      obtain ⟨hle, hgap⟩ := hhead b hb
      simp only [List.headD, decide_eq_true_eq, not_lt]
      rw [abs_sub_comm, abs_of_nonneg (by linarith)]
      linarith
    rw [uniqueLoop_cons, hclu, if_neg (List.cons_ne_nil _ _), hrem, ih htail]
    norm_num

/-- C4 (amended): unique is idempotent only on already-deduplicated data:
if the tolerance is positive and the array is sorted ascending with its
values pairwise at least the tolerance apart (as an output of unique is
exactly when it counts as deduplicated), then unique returns the array
unchanged; hence unique(unique(arr)) = unique(arr) whenever the inner output
happens to be so separated.  In general a second application can merge
cluster means that land within tolerance of one another. -/
theorem unique_idempotent_on_separated (t : ℚ) (u : List ℚ) (ht : 0 < t)
    (hsep : u.Pairwise (fun a b => a ≤ b ∧ t ≤ b - a)) :
    unique u t = Except.ok u := by
  have hs : List.Sorted (· ≤ ·) u := hsep.imp (fun h => h.1)
  rw [unique, hs.insertionSort_eq]
  exact uniqueLoop_eq_self_of_separated ht u hsep

/-- Witness for C4 (amended): the separated array [0, 5] with tolerance 1. -/
theorem unique_idempotent_on_separated_witness :
    unique [0, 5] 1 = Except.ok [0, 5] :=
  unique_idempotent_on_separated 1 [0, 5] (by norm_num)
    (by
      refine List.pairwise_cons.mpr ⟨?_, List.pairwise_singleton _ _⟩
      intro b hb
      rw [List.mem_singleton.mp hb]
      norm_num)

/-! ## Fl arithmetic lemmas -/

/-- NaN absorbs multiplication on the left. -/
theorem Fl.nan_mul (x : Fl) : Fl.mul Fl.nan x = Fl.nan := by
  cases x <;> rfl

/-- NaN absorbs multiplication on the right. -/
theorem Fl.mul_nan (x : Fl) : Fl.mul x Fl.nan = Fl.nan := by
  cases x <;> rfl

/-- Multiplying the float zero: NaN stays NaN (IEEE 0 * NaN = NaN), any
value collapses to zero. -/
theorem Fl.zero_mul_cases (x : Fl) :
    Fl.mul (Fl.val 0) x = if x = Fl.nan then Fl.nan else Fl.val 0 := by
  cases x with
  | nan => rfl
  | val q =>
    show Fl.val (0 * q) = _
    rw [zero_mul]
    rfl

/-- NaN absorbs addition on the right. -/
theorem Fl.add_nan (x : Fl) : Fl.add x Fl.nan = Fl.nan := by
  cases x <;> rfl

/-- Adding the float zero on the right changes nothing (NaN stays NaN). -/
theorem Fl.add_val_zero (x : Fl) : Fl.add x (Fl.val 0) = x := by
  cases x with
  | nan => rfl
  | val q =>
    show Fl.val (q + 0) = _
    rw [add_zero]

/-- getD of a zipWith within bounds. -/
theorem getD_zipWith_fl (f : Fl → Fl → Fl) (l1 l2 : List Fl) (i : ℕ)
    (h1 : i < l1.length) (h2 : i < l2.length) :
    (List.zipWith f l1 l2).getD i Fl.nan = f (l1.getD i Fl.nan) (l2.getD i Fl.nan) := by
  rw [List.getD_eq_getElem?_getD, List.getD_eq_getElem?_getD, List.getD_eq_getElem?_getD,
    List.getElem?_zipWith, List.getElem?_eq_getElem h1, List.getElem?_eq_getElem h2]
  rfl

/-! ## Claim C8: share_nans -/

/-- The nan mask accumulated by share_nans: starting from an accumulator
whose entries are NaN or the float zero, after folding the elementwise
products the entry at each position is NaN exactly when the accumulator was
NaN there or some array is NaN there, and the float zero otherwise. -/
theorem share_nans_fold_getD (n : ℕ) :
    ∀ (arrs : List (List Fl)) (acc : List Fl),
      (∀ a ∈ arrs, a.length = n) → acc.length = n →
      (∀ i : ℕ, i < n → acc.getD i Fl.nan = Fl.nan ∨ acc.getD i Fl.nan = Fl.val 0) →
      (arrs.foldl (fun acc arr => List.zipWith Fl.mul acc arr) acc).length = n ∧
      ∀ i : ℕ, i < n →
        (arrs.foldl (fun acc arr => List.zipWith Fl.mul acc arr) acc).getD i Fl.nan =
          if acc.getD i Fl.nan = Fl.nan ∨ (∃ a ∈ arrs, a.getD i Fl.nan = Fl.nan) then Fl.nan
          else Fl.val 0 := by
  intro arrs
  induction arrs with
  | nil =>
    intro acc _ hacc hinv
    refine ⟨hacc, ?_⟩
    intro i hi
    rcases hinv i hi with h | h
    · rw [List.foldl_nil, h, if_pos (Or.inl rfl)]
    · rw [List.foldl_nil, h]
      rw [if_neg]
      rintro (hnan | ⟨a, ha, _⟩)
      · exact Fl.noConfusion hnan
      · exact List.not_mem_nil a ha
  | cons a as ih =>
    intro acc hlen hacc hinv
    have hlena : a.length = n := hlen a (List.mem_cons_self a as)
    have hlen' : ∀ b ∈ as, b.length = n := fun b hb => hlen b (List.mem_cons_of_mem a hb)
    have hia : ∀ i : ℕ, i < n → i < a.length := by intro i hi; rw [hlena]; exact hi
    have hiacc : ∀ i : ℕ, i < n → i < acc.length := by intro i hi; rw [hacc]; exact hi
    have hacc' : (List.zipWith Fl.mul acc a).length = n := by
      rw [List.length_zipWith, hacc, hlena, Nat.min_self]
    have hinv' : ∀ i : ℕ, i < n →
        (List.zipWith Fl.mul acc a).getD i Fl.nan = Fl.nan ∨
        (List.zipWith Fl.mul acc a).getD i Fl.nan = Fl.val 0 := by
      intro i hi
      rw [getD_zipWith_fl Fl.mul acc a i (hiacc i hi) (hia i hi)]
      rcases hinv i hi with h | h
      · rw [h, Fl.nan_mul]
        exact Or.inl rfl
      · rw [h, Fl.zero_mul_cases]
        by_cases hx : a.getD i Fl.nan = Fl.nan
        · rw [if_pos hx]; exact Or.inl rfl
        · rw [if_neg hx]; exact Or.inr rfl
    obtain ⟨h1, h2⟩ := ih (List.zipWith Fl.mul acc a) hlen' hacc' hinv'
    refine ⟨h1, ?_⟩
    intro i hi
    rw [List.foldl_cons, h2 i hi]
    have hz : (List.zipWith Fl.mul acc a).getD i Fl.nan = Fl.nan ↔
        (acc.getD i Fl.nan = Fl.nan ∨ a.getD i Fl.nan = Fl.nan) := by
      rw [getD_zipWith_fl Fl.mul acc a i (hiacc i hi) (hia i hi)]
      constructor
      · intro hmul
        by_cases hn : acc.getD i Fl.nan = Fl.nan
        · exact Or.inl hn
        · rcases hinv i hi with h | h
          · exact absurd h hn
          · rw [h, Fl.zero_mul_cases] at hmul
            by_cases hx : a.getD i Fl.nan = Fl.nan
            · exact Or.inr hx
            · rw [if_neg hx] at hmul
              exact absurd hmul Fl.noConfusion
      · rintro (h | h)
        · rw [h, Fl.nan_mul]
        · rw [h, Fl.mul_nan]
    refine if_congr ?_ rfl rfl
    rw [hz]
    constructor
    · rintro ((h | h) | ⟨x, hx, hpx⟩)
      · exact Or.inl h
      · exact Or.inr ⟨a, List.mem_cons_self a as, h⟩
      · exact Or.inr ⟨x, List.mem_cons_of_mem a hx, hpx⟩
    · rintro (h | ⟨x, hx, hpx⟩)
      · exact Or.inl (Or.inl h)
      · rcases List.mem_cons.mp hx with rfl | hx2
        · exact Or.inl (Or.inr hpx)
        · exact Or.inr ⟨x, hx2, hpx⟩

/-- C8: share_nans returns one array per input (same order and count), each
of the common length, with NaN positions synchronized across all outputs:
any position that is NaN in at least one input is NaN in every output, and
any position that is NaN in no input keeps its original value in every
output. -/
theorem share_nans_spec (arrs : List (List Fl)) (n : ℕ)
    (hne : arrs ≠ []) (hlen : ∀ a ∈ arrs, a.length = n) :
    (share_nans arrs).length = arrs.length ∧
    ∀ j : ℕ, j < arrs.length →
      ((share_nans arrs).getD j []).length = n ∧
      ∀ i : ℕ, i < n →
        ((∃ a ∈ arrs, a.getD i Fl.nan = Fl.nan) →
          ((share_nans arrs).getD j []).getD i Fl.nan = Fl.nan) ∧
        ((∀ a ∈ arrs, a.getD i Fl.nan ≠ Fl.nan) →
          ((share_nans arrs).getD j []).getD i Fl.nan = (arrs.getD j []).getD i Fl.nan) := by
  have hhead : (arrs.headD []).length = n := by
    cases arrs with
    | nil => exact absurd rfl hne
    | cons a0 as => exact hlen a0 (List.mem_cons_self a0 as)
  have hrep : (List.replicate (arrs.headD []).length (Fl.val 0)).length = n := by
    rw [List.length_replicate, hhead]
  have hrepinv : ∀ i : ℕ, i < n →
      (List.replicate (arrs.headD []).length (Fl.val 0)).getD i Fl.nan = Fl.nan ∨
      (List.replicate (arrs.headD []).length (Fl.val 0)).getD i Fl.nan = Fl.val 0 := by
    intro i hi
    right
    rw [List.getD_eq_getElem?_getD,
      List.getElem?_eq_getElem (by rw [List.length_replicate, hhead]; exact hi),
      List.getElem_replicate]
    rfl
  obtain ⟨hmasklen, hmask⟩ := share_nans_fold_getD n arrs
    (List.replicate (arrs.headD []).length (Fl.val 0)) hlen hrep hrepinv
  have hrepval : ∀ i : ℕ, i < n →
      (List.replicate (arrs.headD []).length (Fl.val 0)).getD i Fl.nan = Fl.val 0 := by
    intro i hi
    rcases hrepinv i hi with h | h
    · exact absurd h (by rw [List.getD_eq_getElem?_getD,
        List.getElem?_eq_getElem (by rw [List.length_replicate, hhead]; exact hi),
        List.getElem_replicate]; exact fun hc => Fl.noConfusion hc)
    · exact h
  constructor
  · rw [share_nans, List.length_map]
  · intro j hj
    have hjmap : ((share_nans arrs).getD j []) =
        List.zipWith Fl.add (arrs.getD j [])
          (arrs.foldl (fun acc arr => List.zipWith Fl.mul acc arr)
            (List.replicate (arrs.headD []).length (Fl.val 0))) := by
      rw [share_nans, List.getD_eq_getElem?_getD,
        List.getElem?_eq_getElem (by rw [List.length_map]; exact hj),
        List.getElem_map, List.getD_eq_getElem?_getD, List.getElem?_eq_getElem hj]
      rfl
    have hjlen : (arrs.getD j []).length = n := by
      rw [List.getD_eq_getElem?_getD, List.getElem?_eq_getElem hj]
      exact hlen _ (List.getElem_mem hj)
    constructor
    · rw [hjmap, List.length_zipWith, hjlen, hmasklen, Nat.min_self]
    · intro i hi
      have hij : i < (arrs.getD j []).length := by rw [hjlen]; exact hi
      have him : i < (arrs.foldl (fun acc arr => List.zipWith Fl.mul acc arr)
          (List.replicate (arrs.headD []).length (Fl.val 0))).length := by
        rw [hmasklen]; exact hi
      constructor
      · intro hex
        rw [hjmap, getD_zipWith_fl Fl.add _ _ i hij him, hmask i hi,
          if_pos (Or.inr hex), Fl.add_nan]
      · intro hall
        have hcond : ¬((List.replicate (arrs.headD []).length (Fl.val 0)).getD i Fl.nan =
            Fl.nan ∨ (∃ a ∈ arrs, a.getD i Fl.nan = Fl.nan)) := by
          rintro (h | ⟨a, ha, hnan⟩)
          · rw [hrepval i hi] at h
            exact Fl.noConfusion h
          · exact hall a ha hnan
        rw [hjmap, getD_zipWith_fl Fl.add _ _ i hij him, hmask i hi,
          if_neg hcond, Fl.add_val_zero]

/-- Witness for C8: in the spec example [[1, nan], [2, 3]] the NaN at
position 1 of the first array propagates to position 1 of the second output,
while position 0 of the second output keeps its value 2. -/
theorem share_nans_spec_witness :
    ((share_nans [[Fl.val 1, Fl.nan], [Fl.val 2, Fl.val 3]]).getD 1 []).getD 1 Fl.nan =
      Fl.nan ∧
    ((share_nans [[Fl.val 1, Fl.nan], [Fl.val 2, Fl.val 3]]).getD 1 []).getD 0 Fl.nan =
      Fl.val 2 := by
  have h := share_nans_spec [[Fl.val 1, Fl.nan], [Fl.val 2, Fl.val 3]] 2
    (List.cons_ne_nil _ _) (by decide)
  constructor
  · exact (((h.2 1 (by decide)).2 1 (by decide)).1
      ⟨[Fl.val 1, Fl.nan], List.mem_cons_self _ _, rfl⟩)
  · have h0 := (((h.2 1 (by decide)).2 0 (by decide)).2 (by decide))
    rw [h0]
    rfl

/-! ## Claim C7: remove_nans_1D -/

/-- Membership in the list of NaN indices of one array. -/
theorem mem_nanIndices {a : List Fl} {i : ℕ} :
    i ∈ nanIndices a ↔ i < a.length ∧ (a.getD i Fl.nan).isNan = true := by
  rw [nanIndices, List.mem_filter, List.mem_range]

/-- Membership in the accumulated bads list of remove_nans_1D. -/
theorem mem_bads_fold (i : ℕ) :
    ∀ (arrs : List (List Fl)) (acc : List ℕ),
      (i ∈ arrs.foldl (fun acc a => nanIndices a ++ acc) acc ↔
        i ∈ acc ∨ ∃ a ∈ arrs, i ∈ nanIndices a) := by
  intro arrs
  induction arrs with
  | nil =>
    intro acc
    rw [List.foldl_nil]
    constructor
    · exact fun h => Or.inl h
    · rintro (h | ⟨a, ha, _⟩)
      · exact h
      · exact absurd ha (List.not_mem_nil a)
  | cons a as ih =>
    intro acc
    rw [List.foldl_cons, ih]
    constructor
    · rintro (h | ⟨x, hx, hpx⟩)
      · rcases List.mem_append.mp h with h2 | h2
        · exact Or.inr ⟨a, List.mem_cons_self a as, h2⟩
        · exact Or.inl h2
      · exact Or.inr ⟨x, List.mem_cons_of_mem a hx, hpx⟩
    · rintro (h | ⟨x, hx, hpx⟩)
      · exact Or.inl (List.mem_append.mpr (Or.inr h))
      · rcases List.mem_cons.mp hx with rfl | hx2
        · exact Or.inl (List.mem_append.mpr (Or.inl hpx))
        · exact Or.inr ⟨x, hx2, hpx⟩

/-- C7: remove_nans_1D keeps exactly the index positions at which no input
array is NaN: there is a strictly increasing list goods of exactly those
positions such that the output is the list of input arrays, in order, each
sampled at goods — so all outputs have the same reduced length and position
k of every output comes from the same original index goods[k]. -/
theorem remove_nans_1D_spec (arrs : List (List Fl)) (n : ℕ)
    (hne : arrs ≠ []) (hlen : ∀ a ∈ arrs, a.length = n) :
    ∃ goods : List ℕ,
      List.Pairwise (· < ·) goods ∧
      (∀ i : ℕ, i ∈ goods ↔ i < n ∧ ∀ a ∈ arrs, (a.getD i Fl.nan).isNan = false) ∧
      remove_nans_1D arrs = arrs.map (fun a => goods.map (fun i => a.getD i Fl.nan)) := by
  have hhead : (arrs.headD []).length = n := by
    cases arrs with
    | nil => exact absurd rfl hne
    | cons a0 as => exact hlen a0 (List.mem_cons_self a0 as)
  refine ⟨(List.range (arrs.headD []).length).filter
    (fun i => decide (¬ i ∈ arrs.foldl (fun acc a => nanIndices a ++ acc) [])), ?_, ?_, rfl⟩
  · exact List.Pairwise.filter _ (List.pairwise_lt_range _)
  · intro i
    rw [List.mem_filter, List.mem_range, hhead, decide_eq_true_eq, mem_bads_fold]
    constructor
    · rintro ⟨hilt, hbad⟩
      refine ⟨hilt, ?_⟩
      intro a ha
      rcases Bool.eq_false_or_eq_true ((a.getD i Fl.nan).isNan) with htr | hf
      · exact absurd (Or.inr ⟨a, ha, mem_nanIndices.mpr ⟨by rw [hlen a ha]; exact hilt, htr⟩⟩)
          hbad
      · exact hf
    · rintro ⟨hilt, hall⟩
      refine ⟨hilt, ?_⟩
      rintro (h | ⟨a, ha, hnan⟩)
      · exact List.not_mem_nil i h
      · have := (mem_nanIndices.mp hnan).2
        rw [hall a ha] at this
        exact Bool.noConfusion this

/-- Witness for C7: the spec example [[1, nan, 3], [nan, 2, 3]] — only index
2 survives and both outputs are [3]. -/
theorem remove_nans_1D_spec_witness :
    ∃ goods : List ℕ,
      List.Pairwise (· < ·) goods ∧
      (∀ i : ℕ, i ∈ goods ↔ i < 3 ∧
        ∀ a ∈ [[Fl.val 1, Fl.nan, Fl.val 3], [Fl.nan, Fl.val 2, Fl.val 3]],
          (a.getD i Fl.nan).isNan = false) ∧
      remove_nans_1D [[Fl.val 1, Fl.nan, Fl.val 3], [Fl.nan, Fl.val 2, Fl.val 3]] =
        [[Fl.val 1, Fl.nan, Fl.val 3], [Fl.nan, Fl.val 2, Fl.val 3]].map
          (fun a => goods.map (fun i => a.getD i Fl.nan)) :=
  remove_nans_1D_spec [[Fl.val 1, Fl.nan, Fl.val 3], [Fl.nan, Fl.val 2, Fl.val 3]] 3
    (List.cons_ne_nil _ _) (by decide)

/-! ## Claim C6: fft error behaviour and output shapes -/

/-- Every error of the modelled np.fft.fft is a ValueError (invalid axis or
zero transform points), never a RuntimeError or DimensionalityError. -/
theorem npfft_error_value (yi : NDArray ℚ) (ax : ℕ) {e : WTError}
    (h : npfft yi ax = Except.error e) : ∃ msg, e = WTError.value msg := by
  simp only [npfft] at h
  by_cases hax : ax < yi.shape.length
  · rw [if_pos hax] at h
    by_cases hn : yi.shape.getD ax 0 = 0
    · rw [if_pos hn] at h
      injection h with h2
      exact ⟨_, h2.symm⟩
    · rw [if_neg hn] at h
      exact Except.noConfusion h
  · rw [if_neg hax] at h
    injection h with h2
    exact ⟨_, h2.symm⟩

/-- For a valid axis with nonzero extent, the modelled np.fft.fft succeeds
and preserves the shape. -/
theorem npfft_ok (yi : NDArray ℚ) (ax : ℕ) (hax : ax < yi.shape.length)
    (hn : yi.shape.getD ax 0 ≠ 0) :
    ∃ yi2, npfft yi ax = Except.ok yi2 ∧ yi2.shape = yi.shape := by
  simp only [npfft]
  rw [if_pos hax, if_neg hn]
  exact ⟨_, rfl, rfl⟩

/-- fftshift does not change the length of the frequency axis. -/
theorem fftshift1_length (l : List Fl) : (fftshift1 l).length = l.length := by
  rw [fftshift1, List.length_map, List.length_range]

/-- fftfreq returns one frequency per sample point. -/
theorem fftfreq_length (n : ℕ) (d : Fl) : (fftfreq n d).length = n := by
  rw [fftfreq, List.length_map, List.length_range]

/-- The N-dimensional fftshift preserves the shape. -/
theorem npfftshift_shape (y : NDArray (List ℚ)) (ax : ℕ) :
    (npfftshift y ax).shape = y.shape := rfl

/-- C6 (amended): fft raises the dimensionality error, carrying expected 1
and the actual dimensionality, exactly when xi is not 1-dimensional; for
1-dimensional xi it raises the general runtime error exactly when the
spacings of xi are not all close to their mean; and when neither error is
raised — provided xi is nonempty and the FFT arguments are valid (axis
within yi, nonzero extent along it) — it returns a 1-D frequency axis of
length xi.size together with a transformed array of the same shape as yi. -/
theorem fft_spec (xi yi : NDArray ℚ) (ax : ℕ) :
    ((∃ g, fft xi yi ax = Except.error (WTError.dimensionality 1 g) ∧ g = xi.ndim) ↔
      xi.ndim ≠ 1) ∧
    (xi.ndim = 1 →
      ((∃ msg, fft xi yi ax = Except.error (WTError.runtime msg)) ↔
        allcloseQ (npdiff xi.data) (meanQ (npdiff xi.data)) = false)) ∧
    (xi.ndim = 1 → allcloseQ (npdiff xi.data) (meanQ (npdiff xi.data)) = true →
      ax < yi.shape.length → yi.shape.getD ax 0 ≠ 0 → xi.data ≠ [] →
      ∃ freqs out, fft xi yi ax = Except.ok (freqs, out) ∧
        freqs.length = xi.data.length ∧ out.shape = yi.shape) := by
  refine ⟨⟨?_, ?_⟩, fun hnd => ⟨?_, ?_⟩, ?_⟩
  · rintro ⟨g, heq, hg⟩
    intro hnd
    rw [fft, if_pos hnd] at heq
    by_cases hac : allcloseQ (npdiff xi.data) (meanQ (npdiff xi.data)) = true
    · rw [if_pos hac] at heq
      cases hnp : npfft yi ax with
      | error e =>
        rw [hnp] at heq
        obtain ⟨msg, rfl⟩ := npfft_error_value yi ax hnp
        injection heq with h2
        exact WTError.noConfusion h2
      | ok yi2 =>
        rw [hnp] at heq
        cases hxd : xi.data with
        | nil =>
          rw [hxd] at heq
          injection heq with h2
          exact WTError.noConfusion h2
        | cons x0 xs =>
          rw [hxd] at heq
          exact Except.noConfusion heq
    · rw [if_neg hac] at heq
      injection heq with h2
      exact WTError.noConfusion h2
  · intro hnd
    exact ⟨xi.ndim, by rw [fft, if_neg hnd], rfl⟩
  · rintro ⟨msg, heq⟩
    rw [fft, if_pos hnd] at heq
    by_cases hac : allcloseQ (npdiff xi.data) (meanQ (npdiff xi.data)) = true
    · exfalso
      rw [if_pos hac] at heq
      cases hnp : npfft yi ax with
      | error e =>
        rw [hnp] at heq
        obtain ⟨m2, rfl⟩ := npfft_error_value yi ax hnp
        injection heq with h2
        exact WTError.noConfusion h2
      | ok yi2 =>
        rw [hnp] at heq
        cases hxd : xi.data with
        | nil =>
          rw [hxd] at heq
          injection heq with h2
          exact WTError.noConfusion h2
        | cons x0 xs =>
          rw [hxd] at heq
          exact Except.noConfusion heq
    · exact Bool.not_eq_true _ |>.mp hac
  · intro hacF
    refine ⟨"WrightTools.kit.fft: argument xi must be evenly spaced", ?_⟩
    rw [fft, if_pos hnd, if_neg (by rw [hacF]; exact Bool.false_ne_true)]
  · intro hnd hac hax hn hdata
    obtain ⟨yi2, hnp, hshape⟩ := npfft_ok yi ax hax hn
    obtain ⟨x0, xs, hxd⟩ := List.exists_cons_of_ne_nil hdata
    have hac2 : allcloseQ (npdiff (x0 :: xs)) (meanQ (npdiff (x0 :: xs))) = true := by
      rw [← hxd]
      exact hac
    simp only [fft, if_pos hnd, hxd, if_pos hac2, hnp]
    refine ⟨_, _, rfl, ?_, ?_⟩
    · rw [fftshift1_length, fftfreq_length]
    · rw [npfftshift_shape, hshape]

/-- C6 counterexample: for the empty 1-dimensional xi (with a nonempty yi)
neither the dimensionality error nor the runtime error is raised — the
spacing list is empty, hence vacuously allclose — and yet fft does not
return: the max reduction over the empty xi raises a ValueError. -/
theorem fft_empty_xi_cex :
    fft ⟨[0], []⟩ ⟨[1], [1]⟩ 0 =
      Except.error
        (WTError.value "zero-size array to reduction operation maximum which has no identity") := by
  with_unfolding_all decide

/-- Witness for C6: a uniformly spaced two-point xi with a two-point yi on
axis 0 transforms successfully with matching lengths and shapes. -/
theorem fft_spec_witness :
    ∃ freqs out, fft ⟨[2], [0, 1]⟩ ⟨[2], [5, 7]⟩ 0 = Except.ok (freqs, out) ∧
      freqs.length = ([0, 1] : List ℚ).length ∧ out.shape = [2] :=
  (fft_spec ⟨[2], [0, 1]⟩ ⟨[2], [5, 7]⟩ 0).2.2 rfl (by with_unfolding_all decide)
    (by decide) (by decide) (by decide)

/-! ## Claim C5: correctness of the closest_pair search -/

/-- The loop invariant of closest_pair over the processed prefix of the pair
list: the running minimum bounds every processed valid pair from below and is
the initial value or achieved by one of them; outs lists exactly the
processed valid pairs achieving the running minimum, with one orientation
per unordered pair and no duplicates. -/
def cpInv (arr : List ℚ) (processed : List (ℕ × ℕ)) (st : ℚ × List (ℕ × ℕ)) : Prop :=
  (∀ p ∈ processed, p.1 ≠ p.2 → st.1 ≤ pairDist arr p) ∧
  (st.1 = cpInit arr ∨ ∃ p ∈ processed, p.1 ≠ p.2 ∧ st.1 = pairDist arr p) ∧
  (∀ p ∈ st.2, p.1 ≠ p.2 ∧ p ∈ processed ∧ pairDist arr p = st.1) ∧
  (∀ p ∈ processed, p.1 ≠ p.2 → pairDist arr p = st.1 →
    p ∈ st.2 ∨ (p.2, p.1) ∈ st.2) ∧
  (∀ a b : ℕ, ¬((a, b) ∈ st.2 ∧ (b, a) ∈ st.2)) ∧
  st.2.Nodup

/-- One step of the double loop preserves the invariant, provided the new
pair was not processed before. -/
theorem cpStep_inv (arr : List ℚ) (processed : List (ℕ × ℕ)) (st : ℚ × List (ℕ × ℕ))
    (q : ℕ × ℕ) (hq : q ∉ processed) (hinv : cpInv arr processed st) :
    cpInv arr (processed ++ [q]) (cpStep arr st q) := by
  obtain ⟨h1, h2, h3, h4, h5, h6⟩ := hinv
  have hmem : ∀ p : ℕ × ℕ, p ∈ processed ++ [q] ↔ p ∈ processed ∨ p = q := by
    intro p
    rw [List.mem_append, List.mem_singleton]
  rw [cpStep]
  by_cases hqq : q.1 = q.2
  · rw [if_pos hqq]
    refine ⟨?_, ?_, ?_, ?_, h5, h6⟩
    · intro p hp hv
      rcases (hmem p).mp hp with h | h
      · exact h1 p h hv
      · subst h; exact absurd hqq hv
    · rcases h2 with h | ⟨p, hp, hv, he⟩
      · exact Or.inl h
      · exact Or.inr ⟨p, (hmem p).mpr (Or.inl hp), hv, he⟩
    · intro p hp
      obtain ⟨hv, hproc, hd⟩ := h3 p hp
      exact ⟨hv, (hmem p).mpr (Or.inl hproc), hd⟩
    · intro p hp hv hd
      rcases (hmem p).mp hp with h | h
      · exact h4 p h hv hd
      · subst h; exact absurd hqq hv
  · rw [if_neg hqq]
    by_cases heq : pairDist arr q = st.1
    · rw [if_pos heq]
      by_cases hrev : (q.2, q.1) ∈ st.2
      · rw [if_pos hrev]
        refine ⟨?_, ?_, ?_, ?_, h5, h6⟩
        · intro p hp hv
          rcases (hmem p).mp hp with h | h
          · exact h1 p h hv
          · subst h; exact le_of_eq heq.symm
        · rcases h2 with h | ⟨p, hp, hv, he⟩
          · exact Or.inl h
          · exact Or.inr ⟨p, (hmem p).mpr (Or.inl hp), hv, he⟩
        · intro p hp
          obtain ⟨hv, hproc, hd⟩ := h3 p hp
          exact ⟨hv, (hmem p).mpr (Or.inl hproc), hd⟩
        · intro p hp hv hd
          rcases (hmem p).mp hp with h | h
          · exact h4 p h hv hd
          · subst h; exact Or.inr hrev
      · rw [if_neg hrev]
        have houts : ∀ p : ℕ × ℕ, p ∈ st.2 ++ [q] ↔ p ∈ st.2 ∨ p = q := by
          intro p
          rw [List.mem_append, List.mem_singleton]
        refine ⟨?_, ?_, ?_, ?_, ?_, ?_⟩
        · intro p hp hv
          rcases (hmem p).mp hp with h | h
          · exact h1 p h hv
          · subst h; exact le_of_eq heq.symm
        · rcases h2 with h | ⟨p, hp, hv, he⟩
          · exact Or.inl h
          · exact Or.inr ⟨p, (hmem p).mpr (Or.inl hp), hv, he⟩
        · intro p hp
          rcases (houts p).mp hp with h | h
          · obtain ⟨hv, hproc, hd⟩ := h3 p h
            exact ⟨hv, (hmem p).mpr (Or.inl hproc), hd⟩
          · subst h; exact ⟨hqq, (hmem p).mpr (Or.inr rfl), heq⟩
        · intro p hp hv hd
          rcases (hmem p).mp hp with h | h
          · rcases h4 p h hv hd with hin | hin
            · exact Or.inl ((houts p).mpr (Or.inl hin))
            · exact Or.inr ((houts (p.2, p.1)).mpr (Or.inl hin))
          · subst h; exact Or.inl ((houts p).mpr (Or.inr rfl))
        · intro a b hab
          obtain ⟨hab1, hab2⟩ := hab
          rcases (houts (a, b)).mp hab1 with h1m | h1m <;>
            rcases (houts (b, a)).mp hab2 with h2m | h2m
          · exact h5 a b ⟨h1m, h2m⟩
          · apply hrev
            have hq2 : q.2 = a ∧ q.1 = b := by
              rw [← h2m]
              exact ⟨rfl, rfl⟩
            rw [hq2.1, hq2.2]
            exact h1m
          · apply hrev
            have hq2 : q.2 = b ∧ q.1 = a := by
              rw [← h1m]
              exact ⟨rfl, rfl⟩
            rw [hq2.1, hq2.2]
            exact h2m
          · apply hqq
            have e1 : q.1 = a ∧ q.2 = b := by
              rw [← h1m]
              exact ⟨rfl, rfl⟩
            have e2 : q.1 = b ∧ q.2 = a := by
              rw [← h2m]
              exact ⟨rfl, rfl⟩
            rw [e1.1, ← e2.2]
        · rw [List.nodup_append]
          refine ⟨h6, List.nodup_singleton q, ?_⟩
          intro x hx hxq
          rw [List.mem_singleton] at hxq
          subst hxq
          exact hq (h3 x hx).2.1
    · rw [if_neg heq]
      by_cases hlt : pairDist arr q < st.1
      · rw [if_pos hlt]
        refine ⟨?_, ?_, ?_, ?_, ?_, ?_⟩
        · intro p hp hv
          rcases (hmem p).mp hp with h | h
          · exact le_trans (le_of_lt hlt) (h1 p h hv)
          · subst h; exact le_refl _
        · exact Or.inr ⟨q, (hmem q).mpr (Or.inr rfl), hqq, rfl⟩
        · intro p hp
          rw [List.mem_singleton] at hp
          subst hp
          exact ⟨hqq, (hmem p).mpr (Or.inr rfl), rfl⟩
        · intro p hp hv hd
          rcases (hmem p).mp hp with h | h
          · exfalso
            have hb := h1 p h hv
            rw [hd] at hb
            exact absurd hb (not_le.mpr hlt)
          · subst h
            exact Or.inl (List.mem_singleton.mpr rfl)
        · intro a b hab
          obtain ⟨hab1, hab2⟩ := hab
          rw [List.mem_singleton] at hab1 hab2
          apply hqq
          have e1 : q.1 = a ∧ q.2 = b := by
            rw [← hab1]
            exact ⟨rfl, rfl⟩
          have e2 : q.1 = b ∧ q.2 = a := by
            rw [← hab2]
            exact ⟨rfl, rfl⟩
          rw [e1.1, ← e2.2]
        · exact List.nodup_singleton q
      · rw [if_neg hlt]
        have hgt : st.1 < pairDist arr q := lt_of_le_of_ne (not_lt.mp hlt) (Ne.symm heq)
        refine ⟨?_, ?_, ?_, ?_, h5, h6⟩
        · intro p hp hv
          rcases (hmem p).mp hp with h | h
          · exact h1 p h hv
          · subst h; exact le_of_lt hgt
        · rcases h2 with h | ⟨p, hp, hv, he⟩
          · exact Or.inl h
          · exact Or.inr ⟨p, (hmem p).mpr (Or.inl hp), hv, he⟩
        · intro p hp
          obtain ⟨hv, hproc, hd⟩ := h3 p hp
          exact ⟨hv, (hmem p).mpr (Or.inl hproc), hd⟩
        · intro p hp hv hd
          rcases (hmem p).mp hp with h | h
          · exact h4 p h hv hd
          · subst h; exact absurd hd heq

/-- The whole double loop preserves the invariant. -/
theorem cpFold_inv (arr : List ℚ) :
    ∀ (rest processed : List (ℕ × ℕ)) (st : ℚ × List (ℕ × ℕ)),
      (processed ++ rest).Nodup → cpInv arr processed st →
      cpInv arr (processed ++ rest) (rest.foldl (cpStep arr) st) := by
  intro rest
  induction rest with
  | nil =>
    intro processed st _ h
    rw [List.append_nil]
    exact h
  | cons q rest ih =>
    intro processed st hnd hinv
    have hq : q ∉ processed := by
      rw [List.nodup_append] at hnd
      intro hmem
      exact hnd.2.2 hmem (List.mem_cons_self q rest)
    have hstep := cpStep_inv arr processed st q hq hinv
    have hnd2 : ((processed ++ [q]) ++ rest).Nodup := by
      rw [List.append_assoc]
      exact hnd
    have hres := ih (processed ++ [q]) (cpStep arr st q) hnd2 hstep
    rw [List.append_assoc] at hres
    exact hres

/-- Membership in the pair list: exactly the pairs with both components in
range. -/
theorem mem_cpPairs {n : ℕ} {p : ℕ × ℕ} : p ∈ cpPairs n ↔ p.1 < n ∧ p.2 < n := by
  rw [cpPairs]
  constructor
  · intro h
    obtain ⟨a, ha, hb⟩ := List.mem_flatMap.mp h
    obtain ⟨b, hbm, rfl⟩ := List.mem_map.mp hb
    exact ⟨List.mem_range.mp ha, List.mem_range.mp hbm⟩
  · rintro ⟨hp1, hp2⟩
    refine List.mem_flatMap.mpr ⟨p.1, List.mem_range.mpr hp1, ?_⟩
    exact List.mem_map.mpr ⟨p.2, List.mem_range.mpr hp2, rfl⟩

/-- The pair list is the square product of the index range. -/
theorem cpPairs_eq_product (n : ℕ) :
    cpPairs n = (List.range n).product (List.range n) := rfl

/-- The pair list has no duplicates. -/
theorem cpPairs_nodup (n : ℕ) : (cpPairs n).Nodup := by
  rw [cpPairs_eq_product]
  exact List.Nodup.product (List.nodup_range n) (List.nodup_range n)

/-- Every pair distance is bounded by the initial minimum max - min. -/
theorem pairDist_le_cpInit {arr : List ℚ} {a b : ℕ}
    (ha : a < arr.length) (hb : b < arr.length) :
    pairDist arr (a, b) ≤ cpInit arr := by
  have hmema : arr.getD a 0 ∈ arr := by
    rw [List.getD_eq_getElem?_getD, List.getElem?_eq_getElem ha]
    exact List.getElem_mem ha
  have hmemb : arr.getD b 0 ∈ arr := by
    rw [List.getD_eq_getElem?_getD, List.getElem?_eq_getElem hb]
    exact List.getElem_mem hb
  rw [pairDist, cpInit, abs_sub_le_iff]
  constructor
  · have hx := le_listMax hmema
    have hy := listMin_le hmemb
    linarith
  · have hx := le_listMax hmemb
    have hy := listMin_le hmema
    linarith

/-- C5: for every numeric array with at least two elements, distance mode
returns the global minimum over all distinct pairs of the absolute value
difference, and indices mode returns exactly the unordered pairs achieving
that minimum, each appearing exactly once (a single orientation, no
duplicates).  In particular, for [0, 1, 2, 3, 3, 4, 5, 6, 1] the distance is
0 and the pair list is [(1, 8), (3, 4)]. -/
theorem closest_pair_correct (arr : List ℚ) (hlen2 : 2 ≤ arr.length) :
    ∃ m outs,
      closest_pair arr "distance" = Except.ok (CPOut.distance m) ∧
      closest_pair arr "indicies" = Except.ok (CPOut.indices outs) ∧
      (∀ a b : ℕ, a < arr.length → b < arr.length → a ≠ b → m ≤ pairDist arr (a, b)) ∧
      (∃ a b : ℕ, a < arr.length ∧ b < arr.length ∧ a ≠ b ∧ m = pairDist arr (a, b)) ∧
      (∀ p ∈ outs, p.1 < arr.length ∧ p.2 < arr.length ∧ p.1 ≠ p.2 ∧ pairDist arr p = m) ∧
      (∀ a b : ℕ, a < arr.length → b < arr.length → a ≠ b → pairDist arr (a, b) = m →
        (a, b) ∈ outs ∨ (b, a) ∈ outs) ∧
      (∀ a b : ℕ, ¬((a, b) ∈ outs ∧ (b, a) ∈ outs)) ∧
      outs.Nodup ∧
      closest_pair [0, 1, 2, 3, 3, 4, 5, 6, 1] "distance" = Except.ok (CPOut.distance 0) ∧
      closest_pair [0, 1, 2, 3, 3, 4, 5, 6, 1] "indicies" =
        Except.ok (CPOut.indices [(1, 8), (3, 4)]) := by
  have hne : arr ≠ [] := by
    intro h
    rw [h] at hlen2
    exact absurd hlen2 (by decide)
  have hempty : arr.isEmpty = false := by
    cases arr with
    | nil => exact absurd rfl hne
    | cons x xs => rfl
  have hinv0 : cpInv arr [] (cpInit arr, []) := by
    refine ⟨?_, Or.inl rfl, ?_, ?_, ?_, List.nodup_nil⟩
    · intro p hp
      exact absurd hp (List.not_mem_nil p)
    · intro p hp
      exact absurd hp (List.not_mem_nil p)
    · intro p hp
      exact absurd hp (List.not_mem_nil p)
    · intro a b hab
      exact List.not_mem_nil _ hab.1
  have hfold := cpFold_inv arr (cpPairs arr.length) [] (cpInit arr, [])
    (by rw [List.nil_append]; exact cpPairs_nodup _) hinv0
  rw [List.nil_append] at hfold
  have hrun : cpInv arr (cpPairs arr.length) (cpRun arr) := hfold
  obtain ⟨h1, hasc, h3, h4, h5, h6⟩ := hrun
  refine ⟨(cpRun arr).1, (cpRun arr).2,
    by rw [closest_pair, hempty]; simp,
    by rw [closest_pair, hempty]; simp,
    ?_, ?_, ?_, ?_, h5, h6,
    by with_unfolding_all decide,
    by with_unfolding_all decide⟩
  · intro a b ha hb hab
    exact h1 (a, b) (mem_cpPairs.mpr ⟨ha, hb⟩) hab
  · rcases hasc with hinit | ⟨p, hp, hv, he⟩
    · obtain ⟨ia, hialt, hia⟩ := List.mem_iff_getElem.mp (listMax_mem hne)
      obtain ⟨ib, hiblt, hib⟩ := List.mem_iff_getElem.mp (listMin_mem hne)
      have hgda : arr.getD ia 0 = listMax arr := by
        rw [List.getD_eq_getElem?_getD, List.getElem?_eq_getElem hialt]
        exact hia
      have hgdb : arr.getD ib 0 = listMin arr := by
        rw [List.getD_eq_getElem?_getD, List.getElem?_eq_getElem hiblt]
        exact hib
      by_cases hiab : ia = ib
      · have hmaxmin : listMax arr = listMin arr := by
          rw [← hgda, ← hgdb, hiab]
        have hallequal : ∀ i : ℕ, i < arr.length → arr.getD i 0 = listMax arr := by
          intro i hi
          have hmemi : arr.getD i 0 ∈ arr := by
            rw [List.getD_eq_getElem?_getD, List.getElem?_eq_getElem hi]
            exact List.getElem_mem hi
          have hle := le_listMax hmemi
          have hge := listMin_le hmemi
          rw [← hmaxmin] at hge
          exact le_antisymm hle hge
        refine ⟨0, 1, by omega, by omega, by decide, ?_⟩
        rw [hinit, cpInit, pairDist]
        have e0 := hallequal 0 (by omega)
        have e1 := hallequal 1 (by omega)
        rw [show ((0 : ℕ), (1 : ℕ)).1 = (0 : ℕ) from rfl,
          show ((0 : ℕ), (1 : ℕ)).2 = (1 : ℕ) from rfl, e0, e1, hmaxmin]
        rw [sub_self, abs_zero]
      · refine ⟨ia, ib, hialt, hiblt, hiab, ?_⟩
        rw [hinit, cpInit, pairDist]
        rw [show (ia, ib).1 = ia from rfl, show (ia, ib).2 = ib from rfl, hgda, hgdb]
        have hle : listMin arr ≤ listMax arr := listMin_le (listMax_mem hne)
        rw [abs_of_nonneg (by linarith)]
    · obtain ⟨hp1, hp2⟩ := mem_cpPairs.mp hp
      exact ⟨p.1, p.2, hp1, hp2, hv, by rw [he]⟩
  · intro p hp
    obtain ⟨hv, hproc, hd⟩ := h3 p hp
    obtain ⟨hp1, hp2⟩ := mem_cpPairs.mp hproc
    exact ⟨hp1, hp2, hv, hd⟩
  · intro a b ha hb hab hd
    exact h4 (a, b) (mem_cpPairs.mpr ⟨ha, hb⟩) hab hd

/-- Witness for C5: the two-element array [0, 1]. -/
theorem closest_pair_correct_witness :
    ∃ m outs, closest_pair [0, 1] "distance" = Except.ok (CPOut.distance m) ∧
      closest_pair [0, 1] "indicies" = Except.ok (CPOut.indices outs) := by
  obtain ⟨m, outs, hd, hi, _⟩ := closest_pair_correct [0, 1] (by decide)
  exact ⟨m, outs, hd, hi⟩

end WT
